import Mathlib

/-!
Verification of the StudentAnalysisSystem utility scripts.

The repository holds two scripts:

* `extract_files.py` — scans a text document for sections of the form
  `### **<path>.swift**` followed by a fenced block labeled `swift`,
  and writes each block's content to `<base>/<path>` on disk
  (`re.findall` with `re.DOTALL` over the pattern
  `### \*\*(.+?\.swift)\*\*\n(three backticks)swift\n(.*?)\n(three backticks)`,
  then `str.strip`, `os.path.join`, `os.makedirs(..., exist_ok=True)`,
  and an overwriting file write).

* `test.py` — reads a CSV file with `csv.DictReader`, prints four fields
  of the first five rows and a final `Total rows: N` line.

The embedding below models the document scanner character by character with
the exact lazy-quantifier backtracking order of the Python regex engine,
the filesystem as an explicit state (a list of created directories plus an
ordered log of file writes), and the CSV reader at the level of
`DictReader`'s header/record zip semantics.
-/

namespace StudentAnalysisSystem

/-- The literal `### **` that opens a matched header line. -/
def headerLit : List Char := ['#', '#', '#', ' ', '*', '*']

/-- The literal `**` + newline + three backticks + `swift` + newline that
separates the captured path from the captured block content. -/
def midLit : List Char := ['*', '*', '\n', '`', '`', '`', 's', 'w', 'i', 'f', 't', '\n']

/-- The literal newline + three backticks that closes a matched block. -/
def delimList : List Char := ['\n', '`', '`', '`']

/-- The characters of `.swift` reversed; group 1 of the pattern must end in
`.swift`, which we detect on the reversed accumulator. -/
def swiftRev : List Char := ['t', 'f', 'i', 'w', 's', '.']

/-- The characters of `.swift`. -/
def swiftList : List Char := ['.', 's', 'w', 'i', 'f', 't']

/-- Lazy matching of `(.*?)` followed by the closing-fence literal:
returns the characters before the FIRST occurrence of `delimList`
and the characters after that occurrence, or `none` when the closing
fence never occurs (Python's lazy `(.*?)\n(backticks)` behaves the same). -/
def findDelim : List Char → Option (List Char × List Char)
  | [] => none
  | c :: t =>
    if delimList.isPrefixOf (c :: t) then some ([], t.drop 3)
    else
      match findDelim t with
      | some (a, b) => some (c :: a, b)
      | none => none

/-- Lazy matching of `(.+?\.swift)\*\*\n(backticks)swift\n(.*?)\n(backticks)`
starting after the header literal.  `acc` is the reversed part of group 1
consumed so far.  Group-1 candidates are tried shortest first, exactly as the
lazy `.+?` of the Python pattern does under `re.DOTALL` (so the candidate may
span newlines); for each candidate that ends in `.swift` and is followed by
the middle literal, the block content is the shortest string up to a closing
fence, and failure backtracks into a longer group-1 candidate. -/
def matchAfterHeader : List Char → List Char → Option (List Char × List Char × List Char)
  | _, [] => none
  | acc, c :: s =>
    let acc' := c :: acc
    if swiftRev.isPrefixOf acc' && decide (7 ≤ acc'.length) then
      if midLit.isPrefixOf s then
        match findDelim (s.drop 12) with
        | some (g2, rest) => some (acc'.reverse, g2, rest)
        | none => matchAfterHeader acc' s
      else matchAfterHeader acc' s
    else matchAfterHeader acc' s

/-- One left-to-right scan of `re.findall`: at each position, attempt a match;
on success emit the two captured groups and resume after the match, otherwise
advance one character.  `fuel` bounds the recursion and is set to the length
of the scanned text by `scan`. -/
def scanAux : Nat → List Char → List (List Char × List Char)
  | 0, _ => []
  | _ + 1, [] => []
  | fuel + 1, c :: s =>
    if headerLit.isPrefixOf (c :: s) then
      match matchAfterHeader [] (s.drop 5) with
      | some (g1, g2, rest) => (g1, g2) :: scanAux fuel rest
      | none => scanAux fuel s
    else scanAux fuel s

/-- `re.findall(pattern, content, re.DOTALL)`: the ordered list of
(path, content) capture pairs. -/
def scan (l : List Char) : List (List Char × List Char) :=
  scanAux l.length l

/-- Python `str.strip()` whitespace class restricted to the ASCII whitespace
characters (space, tab, newline, carriage return, vertical tab, form feed). -/
def pyIsSpace (ch : Char) : Bool :=
  ch == ' ' || ch == '\t' || ch == '\n' || ch == '\r' ||
    ch == Char.ofNat 11 || ch == Char.ofNat 12

/-- Python `str.strip()`: drop whitespace from both ends. -/
def pyStrip (l : List Char) : List Char :=
  ((l.dropWhile pyIsSpace).reverse.dropWhile pyIsSpace).reverse

/-- Python `os.path.join(a, b)` for POSIX paths and two arguments:
an absolute second component replaces the first; otherwise the two are
joined, inserting `/` unless the first is empty or already ends in `/`. -/
def pyJoin (a b : List Char) : List Char :=
  if b.head? = some '/' then b
  else if a = [] ∨ a.getLast? = some '/' then a ++ b
  else a ++ '/' :: b

/-- The hardcoded base directory of `extract_swift_files`. -/
def basePath : List Char :=
  "/Users/fredrickburns/Code_Repositories/StudentAnalysisSystem".toList

/-- `p[:i]` where `i` is one past the last `/` of `p` (empty when `p` has no
slash) — the `head` computed by Python `posixpath.dirname`. -/
def takeUpToLastSlash (p : List Char) : List Char :=
  (p.reverse.dropWhile (fun ch => !(ch == '/'))).reverse

/-- Drop trailing slashes, as `head.rstrip('/')` does. -/
def rstripSlash (l : List Char) : List Char :=
  (l.reverse.dropWhile (fun ch => ch == '/')).reverse

/-- Python `os.path.dirname` for POSIX paths. -/
def dirname (p : List Char) : List Char :=
  let head := takeUpToLastSlash p
  if head.isEmpty || head.all (fun ch => ch == '/') then head
  else rstripSlash head

/-- The directory together with its chain of ancestors, following `dirname`
until it reaches the empty path or a fixed point (`os.makedirs` recurses on
the head of the split the same way).  `fuel` bounds the recursion; callers
pass `p.length + 1`, which suffices because `dirname` strictly shortens any
path it changes. -/
def ancestorChain : Nat → List Char → List (List Char)
  | 0, _ => []
  | fuel + 1, p =>
    if p = [] then []
    else p :: (if dirname p = p then [] else ancestorChain fuel (dirname p))

/-- `os.makedirs(p, exist_ok=True)`: record `p` and all its ancestors as
existing directories; never an error, whether or not they already exist. -/
def mkdirs (p : List Char) (dirs : List (List Char)) : List (List Char) :=
  ancestorChain (p.length + 1) p ++ dirs

/-- The filesystem state threaded through the extractor: the directories
created so far and the ordered log of file writes (path, content). -/
structure FState where
  dirs : List (List Char)
  files : List (List Char × List Char)
deriving DecidableEq

/-- Append one file write to the log (an `open(..., 'w')` write). -/
def writeFile (p c : List Char) (fs : FState) : FState :=
  { fs with files := fs.files ++ [(p, c)] }

/-- The body of the extractor's `for filepath, code in matches` loop:
strip the captured path, join it onto the base directory, create the parent
directories, then write the file. -/
def processEntry (fs : FState) (e : List Char × List Char) : FState :=
  let fp := pyStrip e.1
  let full := pyJoin basePath fp
  writeFile full e.2 { fs with dirs := mkdirs (dirname full) fs.dirs }

/-- Run the extractor loop over every match of the document, starting from
filesystem state `fs`. -/
def extractRun (doc : List Char) (fs : FState) : FState :=
  (scan doc).foldl processEntry fs

/-- `extract_swift_files` applied to a document with the given content,
starting from an empty filesystem state. -/
def extract_swift_files (doc : List Char) : FState :=
  extractRun doc ⟨[], []⟩

/-- The ordered (destination path, content) write events the extractor
performs on a document. -/
def writeEvents (doc : List Char) : List (List Char × List Char) :=
  (scan doc).map (fun e => (pyJoin basePath (pyStrip e.1), e.2))

/-- Content of the file at `p` after a log of writes: the last write to `p`
wins (each `open(..., 'w')` truncates), `none` when `p` was never written. -/
def fsLookup (files : List (List Char × List Char)) (p : List Char) : Option (List Char) :=
  (files.reverse.find? (fun e => e.1 == p)).map (fun e => e.2)

/-- A synthetic document section in the shape the extractor's pattern
recognizes: `### **<path>**`, newline, an opening `swift` fence, the content,
a newline and a closing fence. -/
def mkSection (p c : List Char) : List Char :=
  headerLit ++ (p ++ (midLit ++ (c ++ delimList)))

/-- A synthetic document made of consecutive well-formed sections. -/
def mkDoc : List (List Char × List Char) → List Char
  | [] => []
  | e :: es => mkSection e.1 e.2 ++ mkDoc es

/-- A path the extractor's pattern can capture as group 1 from a section
header: it ends in `.swift`, has at least one character before that
extension, and stays on the header line without closing the `**` marker
early (no `*` and no newline). -/
def goodPath (p : List Char) : Prop :=
  swiftRev.isPrefixOf p.reverse = true ∧ 7 ≤ p.length ∧ ∀ ch ∈ p, ch ≠ '*' ∧ ch ≠ '\n'

instance : DecidablePred goodPath := fun p => by
  unfold goodPath; infer_instance

/-- Block content whose first closing-fence occurrence is the section's own
closing fence (the content does not itself contain a closing fence). -/
def goodContent (c : List Char) : Prop :=
  findDelim (c ++ delimList) = some (c, [])

instance : DecidablePred goodContent := fun c => by
  unfold goodContent; infer_instance

/-- One CSV row as `csv.DictReader` produces it: the header fields zipped
against the record's values, records shorter than the header padded with
`None` (the reader's `restval`).  A key bound twice keeps its last value,
as building a `dict` from `zip` does. -/
def dictRow (header : List String) (rec : List String) : List (String × Option String) :=
  header.zip (rec.map some ++ List.replicate header.length none)

/-- `row[k]` on the dict: the value of the last binding of `k`, or `none`
(modelling `KeyError`) when `k` is not bound at all. -/
def dictGet (r : List (String × Option String)) (k : String) : Option (Option String) :=
  (r.reverse.find? (fun e => e.1 == k)).map (fun e => e.2)

/-- How Python's `print` renders a field value: `None` for a padded field. -/
def render : Option String → String
  | none => "None"
  | some s => s

/-- The preview line the inspector prints for one row, or `none` when one of
the four key lookups raises `KeyError` (keys are read in source order). -/
def previewLine (r : List (String × Option String)) : Option String :=
  (dictGet r "MSIS").bind (fun m =>
    (dictGet r "D1OP").bind (fun d1 =>
      (dictGet r "DTOP").bind (fun dt =>
        (dictGet r "SCALE_SCORE").map (fun sc =>
          "MSIS: " ++ render m ++ ", D1OP: " ++ render d1 ++ ", DTOP: " ++ render dt ++
            ", SCALE: " ++ render sc))))

/-- The inspector's `for row in reader` loop: print a preview line while
`count < 5`, count every row; a `KeyError` aborts the loop as an error. -/
def inspectLoop : List (List (String × Option String)) → Nat →
    Except String (List String × Nat)
  | [], count => Except.ok ([], count)
  | r :: rs, count =>
    if count < 5 then
      match previewLine r with
      | some line =>
        match inspectLoop rs (count + 1) with
        | Except.ok x => Except.ok (line :: x.1, x.2)
        | Except.error e => Except.error e
      | none => Except.error "KeyError"
    else inspectLoop rs (count + 1)

/-- The loop started with `count = 0`, as in the script. -/
def inspectRows (rows : List (List (String × Option String))) :
    Except String (List String × Nat) :=
  inspectLoop rows 0

/-- Everything the inspector prints: the preview lines followed by the
`Total rows: N` line. -/
def inspectOutput (rows : List (List (String × Option String))) :
    Except String (List String) :=
  match inspectRows rows with
  | Except.ok x => Except.ok (x.1 ++ ["Total rows: " ++ toString x.2])
  | Except.error e => Except.error e

/-- The rows `csv.DictReader` yields for a file with the given header row
and data records. -/
def csvRead (header : List String) (recs : List (List String)) :
    List (List (String × Option String)) :=
  recs.map (dictRow header)

/-- The whole script: `none` models a file that does not exist or cannot be
read (the `open` raises), otherwise the inspector runs on the parsed rows. -/
def runInspector (input : Option (List String × List (List String))) :
    Except String (List String) :=
  match input with
  | none => Except.error "IOError"
  | some f => inspectOutput (csvRead f.1 f.2)

/-! ### Lemmas about the closing-fence search -/

/-- Whatever `findDelim` splits off really was a split around the closing
fence literal. -/
theorem findDelim_sound : ∀ (t a b : List Char), findDelim t = some (a, b) →
    t = a ++ (delimList ++ b) := by
  intro t
  induction t with
  | nil => intro a b h; simp [findDelim] at h
  | cons c t ih =>
    intro a b h
    by_cases hp : delimList.isPrefixOf (c :: t) = true
    · simp only [findDelim, hp, if_true, Option.some.injEq, Prod.mk.injEq] at h
      obtain ⟨ha, hb⟩ := h
      subst ha
      subst hb
      have hpre : delimList <+: c :: t := List.isPrefixOf_iff_prefix.mp hp
      have heq := List.prefix_iff_eq_append.mp hpre
      have hdl : delimList.length = 4 := by decide
      rw [hdl, List.drop_succ_cons] at heq
      rw [List.nil_append]
      exact heq.symm
    · simp only [findDelim, hp, if_false, Bool.false_eq_true] at h
      cases hfd : findDelim t with
      | none => rw [hfd] at h; simp at h
      | some ab =>
        obtain ⟨a', b'⟩ := ab
        rw [hfd] at h
        simp only [Option.some.injEq, Prod.mk.injEq] at h
        obtain ⟨ha, hb⟩ := h
        subst ha hb
        have := ih a' b' hfd
        rw [List.cons_append, ← this]

/-- The remainder returned by `findDelim` is at least four characters
shorter than the searched text. -/
theorem findDelim_len (t a b : List Char) (h : findDelim t = some (a, b)) :
    b.length + 4 ≤ t.length := by
  have hs := findDelim_sound t a b h
  subst hs
  have hdl : delimList.length = 4 := by decide
  simp only [List.length_append]
  omega

/-- Testing the closing-fence literal against `l ++ t` only looks at the
first four characters of `l` when `l` has at least four of them. -/
theorem isPrefixOf_delim_stable (l t : List Char) (h : 4 ≤ l.length) :
    delimList.isPrefixOf (l ++ t) = delimList.isPrefixOf l := by
  have hdl : delimList.length = 4 := by decide
  have h1 : List.take 4 (l ++ t) = List.take 4 l := by
    rw [List.take_append_eq_append_take]
    have h0 : 4 - l.length = 0 := by omega
    rw [h0]
    simp
  have h2 : (delimList.isPrefixOf (l ++ t) = true) ↔ (delimList.isPrefixOf l = true) := by
    rw [ List.isPrefixOf_iff_prefix, List.isPrefixOf_iff_prefix,
      List.prefix_iff_eq_take, List.prefix_iff_eq_take, hdl, h1]
  cases hb : delimList.isPrefixOf l with
  | true => exact h2.mpr hb
  | false =>
    cases hb2 : delimList.isPrefixOf (l ++ t) with
    | true => rw [hb] at h2; exact absurd (h2.mp hb2) (by simp)
    | false => rfl

/-- When the first closing fence after `c` is the one directly appended to
it, appending more text after that fence leaves the split unchanged. -/
theorem findDelim_extend : ∀ (c t : List Char),
    findDelim (c ++ delimList) = some (c, []) →
    findDelim (c ++ (delimList ++ t)) = some (c, t) := by
  intro c
  induction c with
  | nil =>
    intro t _
    show findDelim (delimList ++ t) = some ([], t)
    simp [findDelim, delimList, List.isPrefixOf]
  | cons x c ih =>
    intro t h
    rw [List.cons_append] at h
    by_cases hp : delimList.isPrefixOf (x :: (c ++ delimList)) = true
    · simp only [findDelim, hp, if_true] at h
      simp at h
    · simp only [findDelim, hp, if_false, Bool.false_eq_true] at h
      cases hfd : findDelim (c ++ delimList) with
      | none => rw [hfd] at h; simp at h
      | some ab =>
        obtain ⟨a', b'⟩ := ab
        rw [hfd] at h
        simp only [Option.some.injEq, Prod.mk.injEq] at h
        obtain ⟨ha, hb⟩ := h
        have ha' : a' = c := by
          have := congrArg List.tail ha
          simpa using this
        rw [ha', hb] at hfd
        have hfd2 := ih t hfd
        rw [List.cons_append]
        have hcond : delimList.isPrefixOf (x :: (c ++ (delimList ++ t))) = false := by
          have hsh : x :: (c ++ (delimList ++ t)) = (x :: (c ++ delimList)) ++ t := by
            simp
          rw [hsh, isPrefixOf_delim_stable]
          · exact Bool.of_not_eq_true hp
          · simp [delimList]
        simp only [findDelim, hcond, if_false, Bool.false_eq_true, hfd2]

/-! ### Lemmas about the match attempt after a header literal -/

/-- The remainder returned by a successful match attempt is strictly shorter
than the attempted text. -/
theorem mah_len : ∀ (s acc g1 g2 rest : List Char),
    matchAfterHeader acc s = some (g1, g2, rest) → rest.length + 4 ≤ s.length := by
  intro s
  induction s with
  | nil => intro acc g1 g2 rest h; simp [matchAfterHeader] at h
  | cons c s ih =>
    intro acc g1 g2 rest h
    simp only [matchAfterHeader] at h
    split at h
    · split at h
      · split at h
        · next g2' rest' hfd =>
            simp only [Option.some.injEq, Prod.mk.injEq] at h
            obtain ⟨-, -, hr⟩ := h
            subst hr
            have h1 := findDelim_len _ _ _ hfd
            have h2 : (s.drop 12).length = s.length - 12 := List.length_drop ..
            simp only [List.length_cons]
            omega
        · next hfd =>
            have := ih (c :: acc) g1 g2 rest h
            simp only [List.length_cons]
            omega
      · have := ih (c :: acc) g1 g2 rest h
        simp only [List.length_cons]
        omega
    · have := ih (c :: acc) g1 g2 rest h
      simp only [List.length_cons]
      omega

/-- A successful match attempt decomposes the attempted text as
group 1 remainder, middle literal, group 2, closing fence, remainder. -/
theorem mah_sound : ∀ (s acc g1 g2 rest : List Char),
    matchAfterHeader acc s = some (g1, g2, rest) →
    ∃ u, u ≠ [] ∧ g1 = acc.reverse ++ u ∧
      s = u ++ (midLit ++ (g2 ++ (delimList ++ rest))) := by
  intro s
  induction s with
  | nil => intro acc g1 g2 rest h; simp [matchAfterHeader] at h
  | cons c s ih =>
    intro acc g1 g2 rest h
    simp only [matchAfterHeader] at h
    have hstep : matchAfterHeader (c :: acc) s = some (g1, g2, rest) →
        ∃ u, u ≠ [] ∧ g1 = acc.reverse ++ u ∧
          c :: s = u ++ (midLit ++ (g2 ++ (delimList ++ rest))) := by
      intro h'
      obtain ⟨u', hu', hg, hs⟩ := ih (c :: acc) g1 g2 rest h'
      refine ⟨c :: u', by simp, ?_, ?_⟩
      · rw [hg, List.reverse_cons, List.append_assoc, List.singleton_append]
      · rw [List.cons_append, ← hs]
    split at h
    · split at h
      · split at h
        · next g2' rest' hfd =>
            rename_i hcond hmid xopt
            simp only [Option.some.injEq, Prod.mk.injEq] at h
            obtain ⟨hg, hg2, hr⟩ := h
            subst hg hg2 hr
            have hs1 : midLit ++ List.drop 12 s = s := by
              have hps := List.prefix_iff_eq_append.mp (List.isPrefixOf_iff_prefix.mp hmid)
              have hml : midLit.length = 12 := by decide
              rw [hml] at hps
              exact hps
            have hs2 := findDelim_sound _ _ _ hfd
            refine ⟨[c], by simp, ?_, ?_⟩
            · rw [List.reverse_cons]
            · rw [List.singleton_append, ← hs1, hs2]
        · next hfd => exact hstep h
      · exact hstep h
    · exact hstep h

/-- Group 1 of a successful match attempt ends in `.swift`. -/
theorem mah_swift : ∀ (s acc g1 g2 rest : List Char),
    matchAfterHeader acc s = some (g1, g2, rest) →
    swiftRev.isPrefixOf g1.reverse = true := by
  intro s
  induction s with
  | nil => intro acc g1 g2 rest h; simp [matchAfterHeader] at h
  | cons c s ih =>
    intro acc g1 g2 rest h
    simp only [matchAfterHeader] at h
    split at h
    · split at h
      · split at h
        · next g2' rest' hfd =>
            rename_i hcond hmid xopt
            simp only [Option.some.injEq, Prod.mk.injEq] at h
            obtain ⟨hg, -, -⟩ := h
            subst hg
            rw [List.reverse_reverse]
            exact (Bool.and_eq_true ..).mp hcond |>.1
        · next hfd => exact ih (c :: acc) g1 g2 rest h
      · exact ih (c :: acc) g1 g2 rest h
    · exact ih (c :: acc) g1 g2 rest h

/-! ### The match attempt on a well-formed section succeeds exactly -/

/-- One unfolding step of the match attempt, usable without triggering
further unfolding when the tail is a concrete list. -/
theorem mah_step (acc : List Char) (c : Char) (s : List Char) :
    matchAfterHeader acc (c :: s) =
      if (swiftRev.isPrefixOf (c :: acc) && decide (7 ≤ (c :: acc).length)) = true then
        if midLit.isPrefixOf s = true then
          match findDelim (s.drop 12) with
          | some (g2, rest) => some ((c :: acc).reverse, g2, rest)
          | none => matchAfterHeader (c :: acc) s
        else matchAfterHeader (c :: acc) s
      else matchAfterHeader (c :: acc) s := by
  simp only [matchAfterHeader]

/-- Running the match attempt through the remaining header-line characters
`pRem` (none of which is `*`): the first group-1 candidate that both ends in
`.swift` and is followed by the middle literal is the full `pRem`, so the
attempt returns precisely the section's path, content and remainder. -/
theorem mah_run : ∀ (pRem acc c t : List Char),
    pRem ≠ [] →
    (∀ ch ∈ pRem, ch ≠ '*') →
    swiftRev.isPrefixOf (pRem.reverse ++ acc) = true →
    7 ≤ pRem.length + acc.length →
    findDelim (c ++ (delimList ++ t)) = some (c, t) →
    matchAfterHeader acc (pRem ++ (midLit ++ (c ++ (delimList ++ t)))) =
      some ((pRem.reverse ++ acc).reverse, c, t) := by
  intro pRem
  induction pRem with
  | nil => intro acc c t hne; exact absurd rfl hne
  | cons x pR ih =>
    intro acc c t hne hstar hswift hlen hfd
    rw [List.cons_append]
    by_cases hPR : pR = []
    · subst hPR
      rw [List.nil_append]
      rw [mah_step]
      have hsw1 : swiftRev.isPrefixOf (x :: acc) = true := by
        have hx : ([x] : List Char).reverse ++ acc = x :: acc := by simp
        rw [← hx]
        exact hswift
      have hln1 : decide (7 ≤ (x :: acc).length) = true := by
        apply decide_eq_true
        simp only [List.length_cons]
        simp only [List.length_cons, List.length_nil] at hlen
        omega
      have hc1 : (swiftRev.isPrefixOf (x :: acc) && decide (7 ≤ (x :: acc).length)) = true := by
        rw [hsw1, hln1]
        rfl
      rw [if_pos hc1]
      have hmid : midLit.isPrefixOf (midLit ++ (c ++ (delimList ++ t))) = true := by
        rw [ List.isPrefixOf_iff_prefix]
        exact List.prefix_append _ _
      rw [if_pos hmid]
      have hdrop : List.drop 12 (midLit ++ (c ++ (delimList ++ t))) = c ++ (delimList ++ t) := rfl
      rw [hdrop, hfd]
      rfl
    · have hyne : midLit.isPrefixOf (pR ++ (midLit ++ (c ++ (delimList ++ t)))) = false := by
        cases pR with
        | nil => exact absurd rfl hPR
        | cons y pR' =>
          have hy : y ≠ '*' := hstar y (by simp)
          have hb : ('*' == y) = false := by
            rw [beq_eq_false_iff_ne]
            exact fun hEq => hy hEq.symm
          rw [List.cons_append]
          simp [midLit, List.isPrefixOf, hb]
      have htail : matchAfterHeader (x :: acc) (pR ++ (midLit ++ (c ++ (delimList ++ t)))) =
          some ((pR.reverse ++ (x :: acc)).reverse, c, t) := by
        refine ih (x :: acc) c t hPR (fun ch hch => hstar ch (by simp [hch])) ?_ ?_ hfd
        · have hEq : pR.reverse ++ (x :: acc) = (x :: pR).reverse ++ acc := by simp
          rw [hEq]
          exact hswift
        · simp only [List.length_cons] at hlen ⊢
          omega
      have hout : ((pR.reverse ++ (x :: acc)).reverse : List Char) =
          ((x :: pR).reverse ++ acc).reverse := by simp
      rw [mah_step]
      by_cases hb : (swiftRev.isPrefixOf (x :: acc) && decide (7 ≤ (x :: acc).length)) = true
      · rw [if_pos hb, if_neg (by simp [hyne]), htail, hout]
      · rw [if_neg hb, htail, hout]

/-- On a well-formed section body the match attempt captures exactly the
section's path and content and stops exactly at the section's end. -/
theorem matchAfterHeader_exact (p c t : List Char) (hp : goodPath p) (hc : goodContent c) :
    matchAfterHeader [] (p ++ (midLit ++ (c ++ (delimList ++ t)))) = some (p, c, t) := by
  obtain ⟨hsw, hlen, hchars⟩ := hp
  have hfd := findDelim_extend c t hc
  have hne : p ≠ [] := by
    intro h0
    subst h0
    simp at hlen
  have h := mah_run p [] c t hne (fun ch hch => (hchars ch hch).1)
      (by rw [List.append_nil]; exact hsw)
      (by simp only [List.length_nil]; omega)
      hfd
  rw [List.append_nil, List.reverse_reverse] at h
  exact h

/-! ### The scan does not depend on the fuel, given enough of it -/

theorem scanAux_congr : ∀ (f₁ : Nat) (s : List Char) (f₂ : Nat),
    s.length ≤ f₁ → s.length ≤ f₂ → scanAux f₁ s = scanAux f₂ s := by
  intro f₁
  induction f₁ with
  | zero =>
    intro s f₂ h1 h2
    have hs : s = [] := List.eq_nil_of_length_eq_zero (Nat.le_zero.mp h1)
    subst hs
    cases f₂ <;> simp [scanAux]
  | succ f ih =>
    intro s f₂ h1 h2
    cases s with
    | nil => cases f₂ <;> simp [scanAux]
    | cons c s' =>
      cases f₂ with
      | zero => simp at h2
      | succ g =>
        simp only [List.length_cons] at h1 h2
        simp only [scanAux]
        by_cases hh : headerLit.isPrefixOf (c :: s') = true
        · rw [if_pos hh, if_pos hh]
          cases hm : matchAfterHeader [] (s'.drop 5) with
          | none =>
            exact ih s' g (by omega) (by omega)
          | some r =>
            obtain ⟨g1, g2, rest⟩ := r
            have hlen := mah_len _ _ _ _ _ hm
            rw [List.length_drop] at hlen
            have hr1 : rest.length ≤ f := by omega
            have hr2 : rest.length ≤ g := by omega
            simp only [hm]
            rw [ih rest g hr1 hr2]
        · rw [if_neg hh, if_neg hh]
          exact ih s' g (by omega) (by omega)

/-! ### Scanning a well-formed section -/

theorem scanAux_section (p c t : List Char) (hp : goodPath p) (hc : goodContent c) :
    ∀ fuel, (mkSection p c ++ t).length ≤ fuel →
    scanAux fuel (mkSection p c ++ t) = (p, c) :: scanAux (fuel - 1) t := by
  intro fuel hf
  have hlen29 : 29 ≤ (mkSection p c ++ t).length := by
    obtain ⟨-, hl, -⟩ := hp
    simp [mkSection, headerLit, midLit, delimList]
    omega
  cases fuel with
  | zero => omega
  | succ f =>
    have hshape : mkSection p c ++ t =
        '#' :: ('#' :: ('#' :: (' ' :: ('*' :: ('*' ::
          (p ++ (midLit ++ (c ++ (delimList ++ t))))))))) := by
      simp [mkSection, headerLit]
    rw [hshape]
    simp only [scanAux]
    have hh : headerLit.isPrefixOf ('#' :: ('#' :: ('#' :: (' ' :: ('*' :: ('*' ::
        (p ++ (midLit ++ (c ++ (delimList ++ t)))))))))) = true := by
      simp [headerLit, List.isPrefixOf]
    rw [if_pos hh]
    have hdrop : List.drop 5 ('#' :: ('#' :: (' ' :: ('*' :: ('*' ::
        (p ++ (midLit ++ (c ++ (delimList ++ t)))))))))
        = p ++ (midLit ++ (c ++ (delimList ++ t))) := rfl
    rw [hdrop, matchAfterHeader_exact p c t hp hc]
    rfl

theorem scan_section (p c t : List Char) (hp : goodPath p) (hc : goodContent c) :
    scan (mkSection p c ++ t) = (p, c) :: scan t := by
  rw [scan, scanAux_section p c t hp hc _ (le_refl _)]
  rw [scan]
  have hL : t.length + 1 ≤ (mkSection p c ++ t).length := by
    simp only [mkSection, List.length_append]
    have h6 : headerLit.length = 6 := by decide
    omega
  rw [scanAux_congr _ t t.length (by omega) (le_refl _)]

/-- Scanning a document made of well-formed sections yields exactly those
sections, in order. -/
theorem scan_mkDoc : ∀ (es : List (List Char × List Char)),
    (∀ e ∈ es, goodPath e.1 ∧ goodContent e.2) → scan (mkDoc es) = es := by
  intro es
  induction es with
  | nil => intro _; rfl
  | cons e es ih =>
    intro h
    show scan (mkSection e.1 e.2 ++ mkDoc es) = e :: es
    rw [scan_section e.1 e.2 (mkDoc es) (h e (by simp)).1 (h e (by simp)).2]
    rw [ih (fun x hx => h x (by simp [hx]))]

/-! ### The extractor run as a function of its matches -/

theorem foldl_files : ∀ (ms : List (List Char × List Char)) (fs : FState),
    (ms.foldl processEntry fs).files =
      fs.files ++ ms.map (fun e => (pyJoin basePath (pyStrip e.1), e.2)) := by
  intro ms
  induction ms with
  | nil => intro fs; simp
  | cons m ms ih =>
    intro fs
    rw [List.foldl_cons, ih]
    simp [processEntry, writeFile]

theorem extractRun_files (doc : List Char) (fs : FState) :
    (extractRun doc fs).files = fs.files ++ writeEvents doc := by
  rw [extractRun, writeEvents]
  exact foldl_files _ _

theorem fsLookup_twice (xs ws : List (List Char × List Char)) (q : List Char) :
    fsLookup (xs ++ ws ++ ws) q = fsLookup (xs ++ ws) q := by
  rw [fsLookup, fsLookup, List.reverse_append, List.reverse_append, List.find?_append]
  cases hf : List.find? (fun e => e.1 == q) ws.reverse with
  | some v => simp [hf, Option.or, List.find?_append]
  | none => simp [hf, Option.or, List.find?_append]

/-! ### Claim theorems for the extractor -/

/-- C1 (counterexample): the extractor's pattern only accepts paths ending
in `.swift`, so on the synthetic document whose section header names
`a/b/c.txt` (with content `hello`-newline-`world` in a swift-labeled fence)
it matches nothing: no write event happens and no file exists at
`<base>/a/b/c.txt` afterwards, contradicting the claim that the file is
produced with those contents. -/
theorem c1_txt_counterexample :
    writeEvents "### **a/b/c.txt**\n```swift\nhello\nworld\n```".toList = [] ∧
    fsLookup (extract_swift_files "### **a/b/c.txt**\n```swift\nhello\nworld\n```".toList).files
      (pyJoin basePath "a/b/c.txt".toList) = none := by
  constructor
  · decide
  · decide

/-- C1 (amended): with the path changed to `a/b/c.swift` — the only form the
extractor's pattern accepts — the round trip holds: running the extractor on
the synthetic document produces a file at `<base>/a/b/c.swift` whose contents
equal exactly `hello`-newline-`world`. -/
theorem c1_swift_roundtrip :
    fsLookup (extract_swift_files "### **a/b/c.swift**\n```swift\nhello\nworld\n```".toList).files
      (pyJoin basePath "a/b/c.swift".toList) = some "hello\nworld".toList := by
  decide

/-- C2: a document consisting of N well-formed sections (well-formed in the
pattern's sense: a `.swift` path on the header line and a swift-labeled fence
whose content does not contain a closing fence) is scanned to exactly those
N sections, the extractor performs exactly N writes, and the i-th write
carries the i-th section's content (and its joined destination path). -/
theorem extractor_multiplicity (es : List (List Char × List Char))
    (h : ∀ e ∈ es, goodPath e.1 ∧ goodContent e.2) :
    scan (mkDoc es) = es ∧
    writeEvents (mkDoc es) = es.map (fun e => (pyJoin basePath (pyStrip e.1), e.2)) ∧
    (writeEvents (mkDoc es)).length = es.length := by
  have hs := scan_mkDoc es h
  refine ⟨hs, ?_, ?_⟩
  · rw [writeEvents, hs]
  · rw [writeEvents, hs, List.length_map]

/-- Witness for C2 at a concrete two-section document. -/
theorem extractor_multiplicity_witness :
    (∀ e ∈ ([("Sources/A.swift".toList, "let a = 1".toList),
             ("Sources/B.swift".toList, "let b = 2".toList)] :
        List (List Char × List Char)), goodPath e.1 ∧ goodContent e.2) ∧
    scan (mkDoc [("Sources/A.swift".toList, "let a = 1".toList),
                 ("Sources/B.swift".toList, "let b = 2".toList)]) =
      [("Sources/A.swift".toList, "let a = 1".toList),
       ("Sources/B.swift".toList, "let b = 2".toList)] ∧
    (writeEvents (mkDoc [("Sources/A.swift".toList, "let a = 1".toList),
                         ("Sources/B.swift".toList, "let b = 2".toList)])).length = 2 := by
  refine ⟨by decide, ?_⟩
  have h := extractor_multiplicity
    [("Sources/A.swift".toList, "let a = 1".toList),
     ("Sources/B.swift".toList, "let b = 2".toList)] (by decide)
  exact ⟨h.1, h.2.2.trans (by decide)⟩

/-- C3: extraction is idempotent — running the extractor twice over the same
document leaves every path with exactly the content it had after a single
run (each second-run write overwrites the first-run write of the same path,
and no path exists after two runs that did not exist after one). -/
theorem extractor_idempotent (doc : List Char) (fs₀ : FState) (q : List Char) :
    fsLookup (extractRun doc (extractRun doc fs₀)).files q =
      fsLookup (extractRun doc fs₀).files q := by
  rw [extractRun_files doc (extractRun doc fs₀), extractRun_files doc fs₀]
  exact fsLookup_twice fs₀.files (writeEvents doc) q

/-- C4: a document in which the pattern matches nothing produces no write
events and leaves the filesystem state untouched; the run terminates
normally (it is a total function of the document). -/
theorem extractor_no_sections (doc : List Char) (fs₀ : FState) (h : scan doc = []) :
    extractRun doc fs₀ = fs₀ ∧ writeEvents doc = [] := by
  constructor
  · rw [extractRun, h]
    rfl
  · rw [writeEvents, h]
    rfl

/-- Witness for C4 at a concrete sectionless document. -/
theorem extractor_no_sections_witness :
    scan "Just prose.\nNo headers, no fences.".toList = [] ∧
    extractRun "Just prose.\nNo headers, no fences.".toList ⟨[], []⟩ = ⟨[], []⟩ ∧
    writeEvents "Just prose.\nNo headers, no fences.".toList = [] := by
  refine ⟨by decide, ?_⟩
  have h := extractor_no_sections "Just prose.\nNo headers, no fences.".toList ⟨[], []⟩ (by decide)
  exact ⟨h.1, h.2⟩

/-! ### Every captured path ends in `.swift` and content sits between fences -/

theorem scanAux_swift : ∀ (fuel : Nat) (s g1 g2 : List Char),
    (g1, g2) ∈ scanAux fuel s → swiftRev.isPrefixOf g1.reverse = true := by
  intro fuel
  induction fuel with
  | zero => intro s g1 g2 h; simp [scanAux] at h
  | succ f ih =>
    intro s g1 g2 h
    cases s with
    | nil => simp [scanAux] at h
    | cons c s' =>
      simp only [scanAux] at h
      by_cases hh : headerLit.isPrefixOf (c :: s') = true
      · rw [if_pos hh] at h
        cases hm : matchAfterHeader [] (s'.drop 5) with
        | none =>
          rw [hm] at h
          exact ih s' g1 g2 h
        | some r =>
          obtain ⟨g1', g2', rest'⟩ := r
          rw [hm] at h
          simp only [List.mem_cons] at h
          cases h with
          | inl he =>
            cases he
            exact mah_swift _ _ _ _ _ hm
          | inr ht => exact ih rest' g1 g2 ht
      · rw [if_neg hh] at h
        exact ih s' g1 g2 h

theorem swiftRev_eq : swiftList.reverse = swiftRev := by decide

theorem suffix_of_swiftRev (g1 : List Char)
    (h : swiftRev.isPrefixOf g1.reverse = true) : swiftList <:+ g1 := by
  have hp : swiftRev <+: g1.reverse := List.isPrefixOf_iff_prefix.mp h
  rw [← swiftRev_eq] at hp
  exact List.reverse_prefix.mp hp

theorem swift_suffix_dropWhile : ∀ (l : List Char),
    swiftList <:+ l → swiftList <:+ l.dropWhile pyIsSpace := by
  intro l
  induction l with
  | nil =>
    intro h
    rw [List.suffix_nil] at h
    exact absurd h (by decide)
  | cons x xs ih =>
    intro h
    rw [List.dropWhile_cons]
    by_cases hx : pyIsSpace x = true
    · rw [if_pos hx]
      rcases List.suffix_cons_iff.mp h with he | ht
      · exfalso
        have he' : ('.' :: 's' :: 'w' :: 'i' :: 'f' :: 't' :: [] : List Char) = x :: xs := he
        injection he' with h1 h2
        rw [← h1] at hx
        exact absurd hx (by decide)
      · exact ih ht
    · rw [if_neg hx]
      exact h

theorem pyStrip_swift_suffix (l : List Char) (h : swiftList <:+ l) :
    swiftList <:+ pyStrip l := by
  have h1 : swiftList <:+ l.dropWhile pyIsSpace := swift_suffix_dropWhile l h
  obtain ⟨u, hu⟩ := h1
  have hrev : (l.dropWhile pyIsSpace).reverse =
      't' :: ('f' :: ('i' :: ('w' :: ('s' :: ('.' :: u.reverse))))) := by
    rw [← hu, List.reverse_append]
    rfl
  rw [pyStrip, hrev, List.dropWhile_cons_of_neg (by decide), ← hrev, List.reverse_reverse]
  exact ⟨u, hu⟩

theorem pyJoin_suffix (a b : List Char) (h : swiftList <:+ b) :
    swiftList <:+ pyJoin a b := by
  rw [pyJoin]
  by_cases h1 : b.head? = some '/'
  · rw [if_pos h1]
    exact h
  · rw [if_neg h1]
    by_cases h2 : a = [] ∨ a.getLast? = some '/'
    · rw [if_pos h2]
      exact h.trans (List.suffix_append a b)
    · rw [if_neg h2]
      have hc : swiftList <:+ '/' :: b := (List.suffix_cons_iff).mpr (Or.inr h)
      exact hc.trans (List.suffix_append a ('/' :: b))

/-- C9: the pattern only recognizes headers naming a `.swift` path with a
swift-labeled fence, so every destination path of a write event the
extractor performs ends in `.swift` (sections in any other form produce no
write event at all, as the run is fully determined by the match list). -/
theorem written_paths_swift (doc : List Char) (e : List Char × List Char)
    (he : e ∈ writeEvents doc) : swiftList <:+ e.1 := by
  rw [writeEvents] at he
  obtain ⟨g, hg, hge⟩ := List.mem_map.mp he
  have hmem : (g.1, g.2) ∈ scanAux doc.length doc := by
    rw [Prod.mk.eta]
    exact hg
  have hsw := scanAux_swift doc.length doc g.1 g.2 hmem
  have hsuf := pyJoin_suffix basePath (pyStrip g.1)
    (pyStrip_swift_suffix g.1 (suffix_of_swiftRev g.1 hsw))
  have he1 : e.1 = pyJoin basePath (pyStrip g.1) := by rw [← hge]
  rw [he1]
  exact hsuf

/-- Witness for C9 at a concrete document and write event. -/
theorem written_paths_swift_witness :
    ((pyJoin basePath (pyStrip "a/b/c.swift".toList), "hello\nworld".toList) ∈
      writeEvents "### **a/b/c.swift**\n```swift\nhello\nworld\n```".toList) ∧
    swiftList <:+ (pyJoin basePath (pyStrip "a/b/c.swift".toList), "hello\nworld".toList).1 := by
  refine ⟨by decide, ?_⟩
  exact written_paths_swift "### **a/b/c.swift**\n```swift\nhello\nworld\n```".toList
    (pyJoin basePath (pyStrip "a/b/c.swift".toList), "hello\nworld".toList) (by decide)

theorem scanAux_sound : ∀ (fuel : Nat) (s g1 g2 : List Char),
    (g1, g2) ∈ scanAux fuel s →
    ∃ pre u rest,
      s = pre ++ (headerLit ++ (u ++ (midLit ++ (g2 ++ (delimList ++ rest))))) := by
  intro fuel
  induction fuel with
  | zero => intro s g1 g2 h; simp [scanAux] at h
  | succ f ih =>
    intro s g1 g2 h
    cases s with
    | nil => simp [scanAux] at h
    | cons c s' =>
      simp only [scanAux] at h
      by_cases hh : headerLit.isPrefixOf (c :: s') = true
      · rw [if_pos hh] at h
        have hcs : c :: s' = headerLit ++ List.drop 5 s' := by
          have hpre := List.prefix_iff_eq_append.mp (List.isPrefixOf_iff_prefix.mp hh)
          have h6 : headerLit.length = 6 := by decide
          rw [h6] at hpre
          rw [← hpre, List.drop_succ_cons]
        cases hm : matchAfterHeader [] (s'.drop 5) with
        | none =>
          rw [hm] at h
          obtain ⟨pre, u, rest, hdec⟩ := ih s' g1 g2 h
          exact ⟨c :: pre, u, rest, by rw [List.cons_append, hdec]⟩
        | some r =>
          obtain ⟨g1', g2', rest'⟩ := r
          rw [hm] at h
          simp only [List.mem_cons] at h
          cases h with
          | inl he =>
            cases he
            obtain ⟨u', hu', hg1', hs5⟩ := mah_sound (s'.drop 5) [] g1 g2 rest' hm
            exact ⟨[], u', rest', by rw [List.nil_append, hcs, hs5]⟩
          | inr ht =>
            obtain ⟨u', hu', hg1', hs5⟩ := mah_sound (s'.drop 5) [] g1' g2' rest' hm
            obtain ⟨pre2, u2, rest2, hdec2⟩ := ih rest' g1 g2 ht
            refine ⟨headerLit ++ (u' ++ (midLit ++ (g2' ++ (delimList ++ pre2)))), u2, rest2, ?_⟩
            rw [hcs, hs5, hdec2]
            simp [List.append_assoc]
      · rw [if_neg hh] at h
        obtain ⟨pre, u, rest, hdec⟩ := ih s' g1 g2 h
        exact ⟨c :: pre, u, rest, by rw [List.cons_append, hdec]⟩

/-- C10: every write event's content `e.2` is exactly the characters of the
document strictly between the newline that ends the opening fence (the last
character of `midLit`) and the newline that precedes the matched closing
fence (the first character of `delimList`): the document continues with
newline-fence after the written bytes, so the written file omits that
trailing newline even though the source document contains it. -/
theorem written_content_between_fences (doc : List Char) (e : List Char × List Char)
    (he : e ∈ writeEvents doc) :
    ∃ g1 pre u rest, (g1, e.2) ∈ scan doc ∧
      e.1 = pyJoin basePath (pyStrip g1) ∧
      doc = pre ++ (headerLit ++ (u ++ (midLit ++ (e.2 ++ (delimList ++ rest))))) := by
  rw [writeEvents] at he
  obtain ⟨g, hg, hge⟩ := List.mem_map.mp he
  have he1 : e.1 = pyJoin basePath (pyStrip g.1) := by rw [← hge]
  have he2 : e.2 = g.2 := by rw [← hge]
  have hmem : (g.1, g.2) ∈ scanAux doc.length doc := by
    rw [Prod.mk.eta]
    exact hg
  obtain ⟨pre, u, rest, hdec⟩ := scanAux_sound doc.length doc g.1 g.2 hmem
  refine ⟨g.1, pre, u, rest, ?_, he1, ?_⟩
  · rw [he2, Prod.mk.eta]
    exact hg
  · rw [he2]
    exact hdec

/-- Witness for C10 at a concrete document and write event. -/
theorem written_content_between_fences_witness :
    ((pyJoin basePath (pyStrip "x.swift".toList), "line1\nline2".toList) ∈
      writeEvents "### **x.swift**\n```swift\nline1\nline2\n```".toList) ∧
    (∃ g1 pre u rest,
      (g1, ("line1\nline2".toList : List Char)) ∈
        scan "### **x.swift**\n```swift\nline1\nline2\n```".toList ∧
      pyJoin basePath (pyStrip "x.swift".toList) = pyJoin basePath (pyStrip g1) ∧
      "### **x.swift**\n```swift\nline1\nline2\n```".toList =
        pre ++ (headerLit ++ (u ++ (midLit ++
          (("line1\nline2".toList : List Char) ++ (delimList ++ rest)))))) := by
  refine ⟨by decide, ?_⟩
  exact written_content_between_fences "### **x.swift**\n```swift\nline1\nline2\n```".toList
    (pyJoin basePath (pyStrip "x.swift".toList), "line1\nline2".toList) (by decide)

/-! ### Directory creation before each write -/

theorem dirname_eq (p : List Char) :
    dirname p =
      if (takeUpToLastSlash p).isEmpty || (takeUpToLastSlash p).all (fun ch => ch == '/')
      then takeUpToLastSlash p else rstripSlash (takeUpToLastSlash p) := rfl

theorem takeUpToLastSlash_le (p : List Char) :
    (takeUpToLastSlash p).length ≤ p.length := by
  rw [takeUpToLastSlash, List.length_reverse]
  calc (p.reverse.dropWhile (fun ch => !(ch == '/'))).length
      ≤ p.reverse.length := (List.dropWhile_suffix _).length_le
    _ = p.length := List.length_reverse p

/-- `dirname` strictly shortens any path it changes. -/
theorem dirname_lt : ∀ (p : List Char), dirname p ≠ p → (dirname p).length < p.length := by
  intro p h
  by_cases hcond : ((takeUpToLastSlash p).isEmpty ||
      (takeUpToLastSlash p).all (fun ch => ch == '/')) = true
  · have hdir : dirname p = takeUpToLastSlash p := by rw [dirname_eq, if_pos hcond]
    rw [hdir] at h ⊢
    have hle := takeUpToLastSlash_le p
    rcases lt_or_eq_of_le hle with hlt | heq
    · exact hlt
    · exfalso
      apply h
      have hsuf : (takeUpToLastSlash p).reverse <:+ p.reverse := by
        rw [takeUpToLastSlash, List.reverse_reverse]
        exact List.dropWhile_suffix _
      have heq2 := hsuf.eq_of_length
        (by rw [List.length_reverse, List.length_reverse, heq])
      have heq3 := congrArg List.reverse heq2
      rwa [List.reverse_reverse, List.reverse_reverse] at heq3
  · have hdir : dirname p = rstripSlash (takeUpToLastSlash p) := by
      rw [dirname_eq, if_neg hcond]
    rw [Bool.or_eq_true] at hcond
    push_neg at hcond
    obtain ⟨h1, h2⟩ := hcond
    have hrne : p.reverse.dropWhile (fun ch => !(ch == '/')) ≠ [] := by
      intro h0
      apply h1
      rw [takeUpToLastSlash, h0]
      rfl
    have hhead := List.head_dropWhile_not (fun ch => !(ch == '/')) p.reverse hrne
    have hslash : ((p.reverse.dropWhile (fun ch => !(ch == '/'))).head hrne == '/') = true := by
      simpa using hhead
    have hr : p.reverse.dropWhile (fun ch => !(ch == '/')) =
        '/' :: (p.reverse.dropWhile (fun ch => !(ch == '/'))).tail := by
      have hc := List.head_cons_tail _ hrne
      rw [eq_of_beq hslash] at hc
      exact hc.symm
    have hlen1 : (rstripSlash (takeUpToLastSlash p)).length
        ≤ (p.reverse.dropWhile (fun ch => !(ch == '/'))).tail.length := by
      rw [rstripSlash, takeUpToLastSlash, List.reverse_reverse, List.length_reverse]
      conv_lhs => rw [hr]
      rw [List.dropWhile_cons_of_pos (by decide)]
      exact (List.dropWhile_suffix _).length_le
    have hlen2 : (p.reverse.dropWhile (fun ch => !(ch == '/'))).length ≤ p.length := by
      calc (p.reverse.dropWhile (fun ch => !(ch == '/'))).length
          ≤ p.reverse.length := (List.dropWhile_suffix _).length_le
        _ = p.length := List.length_reverse p
    rw [hdir]
    have htail : (p.reverse.dropWhile (fun ch => !(ch == '/'))).tail.length =
        (p.reverse.dropWhile (fun ch => !(ch == '/'))).length - 1 := List.length_tail _
    have hrlen : 1 ≤ (p.reverse.dropWhile (fun ch => !(ch == '/'))).length := by
      rw [hr]
      simp
    omega

/-- The ancestor chain is closed under `dirname`, up to its two stopping
conditions (a fixed point or the empty path), matching the recursion of
`os.makedirs`. -/
theorem ancestorChain_closed : ∀ (fuel : Nat) (p : List Char), p.length < fuel →
    ∀ d ∈ ancestorChain fuel p,
      dirname d = d ∨ dirname d = [] ∨ dirname d ∈ ancestorChain fuel p := by
  intro fuel
  induction fuel with
  | zero => intro p h; exact absurd h (Nat.not_lt_zero _)
  | succ f ih =>
    intro p hp d hd
    simp only [ancestorChain] at hd ⊢
    by_cases hpe : p = []
    · rw [if_pos hpe] at hd
      simp at hd
    · rw [if_neg hpe] at hd ⊢
      by_cases hfix : dirname p = p
      · rw [if_pos hfix] at hd ⊢
        simp at hd
        subst hd
        exact Or.inl hfix
      · rw [if_neg hfix] at hd ⊢
        simp only [List.mem_cons] at hd
        cases hd with
        | inl he =>
          subst he
          by_cases hde : dirname d = []
          · exact Or.inr (Or.inl hde)
          · refine Or.inr (Or.inr (List.mem_cons_of_mem d ?_))
            have hlt := dirname_lt d hfix
            have hflt : (dirname d).length < f := by omega
            cases f with
            | zero => exact absurd hflt (Nat.not_lt_zero _)
            | succ f' => simp [ancestorChain, hde]
        | inr ht =>
          have hplt : (dirname p).length < f := by
            have := dirname_lt p hfix
            omega
          rcases ih (dirname p) hplt d ht with h1 | h2 | h3
          · exact Or.inl h1
          · exact Or.inr (Or.inl h2)
          · exact Or.inr (Or.inr (List.mem_cons_of_mem p h3))

/-- C7: processing one matched section computes the destination as the base
directory joined with the whitespace-stripped captured path, first creates
(`exist_ok`, hence also keeping every directory that already existed) the
destination's parent directory together with its whole ancestor chain, and
only then appends the file write; the recorded chain is `dirname`-closed up
to the stopping conditions of `os.makedirs`. -/
theorem entry_dirs_before_write (doc : List Char) (fs : FState) (e : List Char × List Char)
    (_he : e ∈ scan doc) :
    processEntry fs e =
      writeFile (pyJoin basePath (pyStrip e.1)) e.2
        { fs with dirs := mkdirs (dirname (pyJoin basePath (pyStrip e.1))) fs.dirs } ∧
    (∀ d ∈ ancestorChain ((dirname (pyJoin basePath (pyStrip e.1))).length + 1)
        (dirname (pyJoin basePath (pyStrip e.1))),
      d ∈ (processEntry fs e).dirs) ∧
    (∀ d ∈ fs.dirs, d ∈ (processEntry fs e).dirs) ∧
    (∀ d ∈ ancestorChain ((dirname (pyJoin basePath (pyStrip e.1))).length + 1)
        (dirname (pyJoin basePath (pyStrip e.1))),
      dirname d = d ∨ dirname d = [] ∨
        dirname d ∈ ancestorChain ((dirname (pyJoin basePath (pyStrip e.1))).length + 1)
          (dirname (pyJoin basePath (pyStrip e.1)))) := by
  have hdirs : (processEntry fs e).dirs =
      ancestorChain ((dirname (pyJoin basePath (pyStrip e.1))).length + 1)
        (dirname (pyJoin basePath (pyStrip e.1))) ++ fs.dirs := rfl
  refine ⟨rfl, ?_, ?_, ?_⟩
  · intro d hd
    rw [hdirs]
    exact List.mem_append_left _ hd
  · intro d hd
    rw [hdirs]
    exact List.mem_append_right _ hd
  · exact ancestorChain_closed _ _ (Nat.lt_succ_self _)

/-- Witness for C7 at a concrete document, entry and starting state. -/
theorem entry_dirs_before_write_witness :
    (("a/b/c.swift".toList, "hello\nworld".toList) ∈
        scan "### **a/b/c.swift**\n```swift\nhello\nworld\n```".toList) ∧
    (∀ d ∈ ancestorChain ((dirname (pyJoin basePath (pyStrip "a/b/c.swift".toList))).length + 1)
        (dirname (pyJoin basePath (pyStrip "a/b/c.swift".toList))),
      d ∈ (processEntry ⟨[], []⟩ ("a/b/c.swift".toList, "hello\nworld".toList)).dirs) := by
  refine ⟨by decide, ?_⟩
  have h := entry_dirs_before_write "### **a/b/c.swift**\n```swift\nhello\nworld\n```".toList
    ⟨[], []⟩ ("a/b/c.swift".toList, "hello\nworld".toList) (by decide)
  exact h.2.1

/-! ### The inspector -/

theorem dictRow_keys (header rec : List String) :
    ∀ x ∈ dictRow header rec, x.1 ∈ header := by
  intro x hx
  exact (List.of_mem_zip hx).1

theorem dictGet_eq_none (header rec : List String) (k : String) (hk : k ∉ header) :
    dictGet (dictRow header rec) k = none := by
  rw [dictGet]
  have hfind : (dictRow header rec).reverse.find? (fun e => e.1 == k) = none := by
    rw [List.find?_eq_none]
    intro x hx
    have hx' : x ∈ dictRow header rec := List.mem_reverse.mp hx
    have hxh : x.1 ∈ header := dictRow_keys header rec x hx'
    simp only [beq_iff_eq]
    intro h0
    exact hk (h0 ▸ hxh)
  rw [hfind]
  rfl

theorem dictGet_isSome (header rec : List String) (k : String) (hk : k ∈ header) :
    (dictGet (dictRow header rec) k).isSome = true := by
  obtain ⟨i, hi, hgi⟩ := List.mem_iff_getElem.mp hk
  have hlen : (dictRow header rec).length = header.length := by
    rw [dictRow, List.length_zip, List.length_append, List.length_map, List.length_replicate]
    exact Nat.min_eq_left (by omega)
  have hib : i < (dictRow header rec).length := by omega
  rw [dictGet]
  have hfind : ((dictRow header rec).reverse.find? (fun e => e.1 == k)).isSome = true := by
    rw [List.find?_isSome]
    refine ⟨(dictRow header rec)[i], List.mem_reverse.mpr (List.getElem_mem hib), ?_⟩
    have hel : (dictRow header rec)[i].1 = header[i] := by
      simp only [dictRow, List.getElem_zip]
    rw [hel, hgi]
    exact beq_self_eq_true k
  obtain ⟨v, hv⟩ := Option.isSome_iff_exists.mp hfind
  rw [hv]
  rfl

theorem previewLine_isSome (r : List (String × Option String))
    (hm : (dictGet r "MSIS").isSome = true) (h1 : (dictGet r "D1OP").isSome = true)
    (h2 : (dictGet r "DTOP").isSome = true) (hs : (dictGet r "SCALE_SCORE").isSome = true) :
    (previewLine r).isSome = true := by
  rw [previewLine]
  obtain ⟨m, hm'⟩ := Option.isSome_iff_exists.mp hm
  obtain ⟨d1, h1'⟩ := Option.isSome_iff_exists.mp h1
  obtain ⟨dt, h2'⟩ := Option.isSome_iff_exists.mp h2
  obtain ⟨sc, hs'⟩ := Option.isSome_iff_exists.mp hs
  rw [hm', h1', h2', hs']
  rfl

theorem previewLine_none (r : List (String × Option String))
    (h : dictGet r "MSIS" = none ∨ dictGet r "D1OP" = none ∨ dictGet r "DTOP" = none ∨
      dictGet r "SCALE_SCORE" = none) :
    previewLine r = none := by
  rw [previewLine]
  rcases h with h | h | h | h
  · rw [h]
    rfl
  · rw [h]
    cases dictGet r "MSIS" <;> rfl
  · rw [h]
    cases dictGet r "MSIS" <;> cases dictGet r "D1OP" <;> rfl
  · rw [h]
    cases dictGet r "MSIS" <;> cases dictGet r "D1OP" <;> cases dictGet r "DTOP" <;> rfl

/-- The loop invariant of the inspector: when every row previews, the loop
returns the preview lines of the first `5 - count` rows and the running
count advanced by the number of rows. -/
theorem inspectLoop_ok : ∀ (rows : List (List (String × Option String))) (count : Nat),
    (∀ r ∈ rows, (previewLine r).isSome = true) →
    inspectLoop rows count =
      Except.ok ((rows.take (5 - count)).filterMap previewLine, count + rows.length) := by
  intro rows
  induction rows with
  | nil => intro count h; simp [inspectLoop]
  | cons r rs ih =>
    intro count h
    simp only [inspectLoop]
    by_cases hc : count < 5
    · rw [if_pos hc]
      obtain ⟨line, hline⟩ := Option.isSome_iff_exists.mp (h r (by simp))
      rw [hline]
      rw [ih (count + 1) (fun x hx => h x (by simp [hx]))]
      have htake : (r :: rs).take (5 - count) = r :: rs.take (5 - (count + 1)) := by
        have h5 : 5 - count = (5 - (count + 1)) + 1 := by omega
        rw [h5, List.take_succ_cons]
      rw [htake, List.filterMap_cons, hline]
      simp only [List.length_cons]
      have harith : count + 1 + rs.length = count + (rs.length + 1) := by omega
      rw [harith]
    · rw [if_neg hc]
      rw [ih (count + 1) (fun x hx => h x (by simp [hx]))]
      have h0 : 5 - count = 0 := by omega
      have h1 : 5 - (count + 1) = 0 := by omega
      rw [h0, h1]
      simp only [List.take_zero, List.length_cons]
      have harith : count + 1 + rs.length = count + (rs.length + 1) := by omega
      rw [harith]

/-- C5: for any CSV whose header contains the four referenced columns, the
inspector prints one preview line for each of the first five data rows
(exactly `min 5 N` lines for N rows) and ends with the line counting every
data row. -/
theorem inspector_preview (header : List String) (recs : List (List String))
    (hm : "MSIS" ∈ header) (h1 : "D1OP" ∈ header) (h2 : "DTOP" ∈ header)
    (hs : "SCALE_SCORE" ∈ header) :
    runInspector (some (header, recs)) =
      Except.ok (((csvRead header recs).take 5).filterMap previewLine ++
        ["Total rows: " ++ toString recs.length]) ∧
    (((csvRead header recs).take 5).filterMap previewLine).length = min 5 recs.length := by
  have hall : ∀ r ∈ csvRead header recs, (previewLine r).isSome = true := by
    intro r hr
    obtain ⟨rec, hrec, hrow⟩ := List.mem_map.mp hr
    subst hrow
    exact previewLine_isSome _ (dictGet_isSome _ _ _ hm) (dictGet_isSome _ _ _ h1)
      (dictGet_isSome _ _ _ h2) (dictGet_isSome _ _ _ hs)
  have hloop := inspectLoop_ok (csvRead header recs) 0 hall
  constructor
  · simp only [runInspector, inspectOutput, inspectRows]
    rw [hloop]
    have hl : (csvRead header recs).length = recs.length := by
      rw [csvRead, List.length_map]
    rw [hl]
    simp
  · have hfm : ∀ (l : List (List (String × Option String))),
        (∀ r ∈ l, (previewLine r).isSome = true) →
        (l.filterMap previewLine).length = l.length := by
      intro l
      induction l with
      | nil => intro _; rfl
      | cons a l ihl =>
        intro hl
        obtain ⟨b, hb⟩ := Option.isSome_iff_exists.mp (hl a (by simp))
        rw [List.filterMap_cons, hb]
        simp [ihl (fun x hx => hl x (by simp [hx]))]
    rw [hfm _ (fun r hr => hall r (List.mem_of_mem_take hr))]
    rw [List.length_take, csvRead, List.length_map]

/-- Witness for C5 at a concrete CSV with the four columns and ten data
rows: exactly five preview lines, and the count line reads `Total rows: 10`. -/
theorem inspector_preview_witness :
    (("MSIS" : String) ∈ (["MSIS", "D1OP", "DTOP", "SCALE_SCORE"] : List String)) ∧
    runInspector (some (["MSIS", "D1OP", "DTOP", "SCALE_SCORE"],
        List.replicate 10 ["1", "2", "3", "4"])) =
      Except.ok (((csvRead ["MSIS", "D1OP", "DTOP", "SCALE_SCORE"]
          (List.replicate 10 ["1", "2", "3", "4"])).take 5).filterMap previewLine ++
        ["Total rows: " ++ toString (List.replicate 10
          (["1", "2", "3", "4"] : List String)).length]) ∧
    (((csvRead ["MSIS", "D1OP", "DTOP", "SCALE_SCORE"]
        (List.replicate 10 ["1", "2", "3", "4"])).take 5).filterMap previewLine).length = 5 ∧
    ("Total rows: " ++ toString (List.replicate 10
        (["1", "2", "3", "4"] : List String)).length) = "Total rows: 10" := by
  have h := inspector_preview ["MSIS", "D1OP", "DTOP", "SCALE_SCORE"]
    (List.replicate 10 ["1", "2", "3", "4"])
    (by decide) (by decide) (by decide) (by decide)
  exact ⟨by decide, h.1, h.2.trans (by decide), by decide⟩

/-- C6: a CSV consisting of a header row and zero data rows makes the
inspector print no preview line and the single line `Total rows: 0`,
without error. -/
theorem inspector_empty (header : List String) :
    runInspector (some (header, [])) = Except.ok ["Total rows: 0"] := rfl

/-- C8 (counterexample): a readable CSV whose header lacks every referenced
column but which has zero data rows does NOT make the inspector fail — the
loop body never runs, so no key is ever looked up and the script prints
`Total rows: 0` and exits normally, contrary to the claim that a missing
column always fails. -/
theorem c8_headeronly_counterexample :
    (("MSIS" : String) ∉ (["ID"] : List String)) ∧
    runInspector (some (["ID"], [])) = Except.ok ["Total rows: 0"] :=
  ⟨by decide, rfl⟩

/-- C8 (amended): the inspector fails when the file does not exist or is
unreadable, and also whenever one of the four referenced columns is missing
from the header AND the CSV has at least one data row — the first previewed
row's key lookup then raises `KeyError`. -/
theorem inspector_failures (header : List String) (rec0 : List String)
    (recs : List (List String))
    (h : "MSIS" ∉ header ∨ "D1OP" ∉ header ∨ "DTOP" ∉ header ∨ "SCALE_SCORE" ∉ header) :
    (runInspector none).isOk = false ∧
    (runInspector (some (header, rec0 :: recs))).isOk = false := by
  constructor
  · rfl
  · have hnone : previewLine (dictRow header rec0) = none := by
      apply previewLine_none
      rcases h with h | h | h | h
      · exact Or.inl (dictGet_eq_none _ _ _ h)
      · exact Or.inr (Or.inl (dictGet_eq_none _ _ _ h))
      · exact Or.inr (Or.inr (Or.inl (dictGet_eq_none _ _ _ h)))
      · exact Or.inr (Or.inr (Or.inr (dictGet_eq_none _ _ _ h)))
    have hloop : inspectRows (csvRead header (rec0 :: recs)) = Except.error "KeyError" := by
      rw [inspectRows, csvRead, List.map_cons]
      simp only [inspectLoop]
      rw [if_pos (by omega), hnone]
    have hout : runInspector (some (header, rec0 :: recs)) = Except.error "KeyError" := by
      simp only [runInspector, inspectOutput]
      rw [hloop]
    rw [hout]
    rfl

/-- Witness for C8 at a concrete missing file and a concrete one-row CSV
missing the `MSIS` column. -/
theorem inspector_failures_witness :
    (runInspector none).isOk = false ∧
    (runInspector (some (["ID"], [["7"]]))).isOk = false :=
  inspector_failures ["ID"] ["7"] [] (Or.inl (by decide))

end StudentAnalysisSystem
